import Mathlib

/-!
Verification of the dead-store-elimination pass in
`src/DeadStoreElimination/DeadStoreElimination.cpp`.

The pass works on one LLVM function at a time.  We embed the function as a
control-flow graph (`CFG`) of numbered blocks, each holding an ordered list
of instructions.  For this analysis an instruction is observed only through
`dyn_cast<LoadInst>` / `dyn_cast<StoreInst>` and the pointer operand, so an
instruction is embedded as a load of a location, a store to a location
(together with the stored value and the volatile flag, both of which the
pass never inspects), or anything else.  Location identifiers (`Value*`
pointer operands in the source) are embedded as natural numbers; the
`set<Value*>` working sets become `Finset Nat`.

The recursive `dfsPostorder` of the source is embedded with an explicit
fuel argument (the recursion depth is bounded by the number of blocks; we
prove the result is independent of the fuel once the fuel exceeds the
number of unvisited blocks).  The `while(changed)` solver loop is likewise
run with enough fuel to reach its fixed point, which we prove it does.
-/

namespace DSE

/-- The three instruction shapes the pass distinguishes.  A `store` carries
its pointer operand plus the stored value and the volatile flag, which the
source never reads (it only calls `getPointerOperand`). -/
inductive Instr where
  | load  (ptr : Nat)
  | store (ptr : Nat) (val : Nat) (vol : Bool)
  | other
deriving DecidableEq, Repr

/-- One bottom-to-top step of the liveness transfer function, mirroring the
body of the reverse-iterator loops: a load inserts its pointer, a store
erases its pointer when present, anything else is a no-op. -/
def step (i : Instr) (s : Finset Nat) : Finset Nat :=
  match i with
  | .load p => insert p s
  | .store p _ _ => if p ∈ s then s.erase p else s
  | .other => s

/-- The backward transfer of a whole block: the instructions are scanned
from last to first starting from the live-out set (the source's
`for(auto I = BB->rbegin(); ...)` loop computing `new_in`). -/
def transferB (es : List Instr) (s : Finset Nat) : Finset Nat :=
  es.foldr step s

/-- Scanning a straight-line instruction list from the FRONT: the first
access to `p`, if any (`some true` = a load of `p` comes first,
`some false` = a store to `p` comes first).  Used to state what an
execution path does with a location. -/
def firstAcc (p : Nat) : List Instr → Option Bool
  | [] => none
  | .load q :: rest => if q = p then some true else firstAcc p rest
  | .store q _ _ :: rest => if q = p then some false else firstAcc p rest
  | .other :: rest => firstAcc p rest

/-- The pointer operands of the load instructions of a list. -/
def loadPtrs (es : List Instr) : Finset Nat :=
  es.foldr (fun i acc => match i with | .load p => insert p acc | _ => acc) ∅

/-- A function embedded as a control-flow graph: `n` blocks numbered
`0, …, n-1`, a distinguished entry block, successor edges and an ordered
instruction list per block.  The two proof fields state the graph is
well formed (every edge target is a block). -/
structure CFG where
  n : Nat
  entry : Nat
  succs : Nat → List Nat
  body : Nat → List Instr
  entry_lt : entry < n
  succs_lt : ∀ b s, s ∈ succs b → s < n

/-- The recursive `dfsPostorder` of the source: mark the node visited,
recurse into the not-yet-visited successors, then append the node.  The
`fuel` argument makes the recursion structural; the run uses fuel `n + 1`,
which we prove is never exhausted. -/
def dfsPostorder (succs : Nat → List Nat) : Nat → Nat → Finset Nat × List Nat → Finset Nat × List Nat
  | 0, _, st => st
  | fuel + 1, node, st =>
    let st1 := (succs node).foldl
      (fun acc s => if s ∈ acc.1 then acc else dfsPostorder succs fuel s acc)
      (insert node st.1, st.2)
    (st1.1, st1.2 ++ [node])

/-- The block schedule computed at the top of `runOnFunction`: DFS
postorder from the entry block, starting from an empty visited set. -/
def order (G : CFG) : List Nat :=
  (dfsPostorder G.succs (G.n + 1) G.entry (∅, [])).2

/-- Reachability along successor edges. -/
def Reach (G : CFG) : Nat → Nat → Prop :=
  Relation.ReflTransGen (fun a b => b ∈ G.succs a)

/-- `a` occurs strictly before `b` in the list `l`. -/
def ordBefore (a b : Nat) (l : List Nat) : Prop :=
  ∃ i j, i < j ∧ l.get? i = some a ∧ l.get? j = some b

/-- The solver's working state: the `loads_in` / `loads_out` maps and the
`changed` flag of the `while` loop.  The maps are total (the source's
`std::map` default-constructs an empty set on first access). -/
structure SState where
  loads_in : Nat → Finset Nat
  loads_out : Nat → Finset Nat
  changed : Bool

/-- Pointwise map update (`loads_in[BB] = new_in`). -/
def upd (m : Nat → Finset Nat) (b : Nat) (v : Finset Nat) : Nat → Finset Nat :=
  fun x => if x = b then v else m x

/-- `new_out`: the union of the `loads_in` sets of the listed successors
(the source's `new_out.insert(loads_in[succ].begin(), ...)` loop). -/
def succUnion (lin : Nat → Finset Nat) (ss : List Nat) : Finset Nat :=
  ss.foldl (fun acc s => acc ∪ lin s) ∅

/-- One visit of one block inside a solver pass: recompute `new_out`,
commit it if it differs, recompute `new_in` from the committed
`loads_out[BB]` by the backward scan, commit it if it differs; `changed`
is raised on either commit. -/
def visitBlock (G : CFG) (st : SState) (b : Nat) : SState :=
  let new_out := succUnion st.loads_in (G.succs b)
  let st1 :=
    if new_out ≠ st.loads_out b then
      { st with changed := true, loads_out := upd st.loads_out b new_out }
    else st
  let new_in := transferB (G.body b) (st1.loads_out b)
  if new_in ≠ st1.loads_in b then
    { st1 with changed := true, loads_in := upd st1.loads_in b new_in }
  else st1

/-- One full pass of the `while(changed)` body: reset `changed`, then
visit every block in the computed order. -/
def solverPass (G : CFG) (st : SState) : SState :=
  (order G).foldl (visitBlock G) { st with changed := false }

/-- The `while(changed)` loop itself, with fuel. -/
def solverLoop (G : CFG) : Nat → SState → SState
  | 0, st => st
  | fuel + 1, st =>
    let st1 := solverPass G st
    if st1.changed then solverLoop G fuel st1 else st1

/-- All maps empty, `changed = true` (the state just before the loop). -/
def initState : SState :=
  { loads_in := fun _ => ∅, loads_out := fun _ => ∅, changed := true }

/-- Every load pointer occurring in a scheduled block: the lattice the
solver works in is the powerset of this finite set. -/
def allLoadLocs (G : CFG) : Finset Nat :=
  (order G).foldr (fun b acc => loadPtrs (G.body b) ∪ acc) ∅

/-- An upper bound for the total size of all solver sets: the measure that
proves the `while` loop terminates. -/
def solveBound (G : CFG) : Nat :=
  2 * (order G).length * (allLoadLocs G).card

/-- The converged solver state (the fuel provably suffices). -/
def solve (G : CFG) : SState :=
  solverLoop G (solveBound G + 1) initState

/-- The marking phase on one block, scanning the REVERSED instruction list
(bottom to top) from the block's converged `loads_out` set: a load inserts
its pointer, a store whose pointer is live erases it, a store whose
pointer is not live is flagged for erasure (`toErase.push_back`).  Returns
the final set and one flag per scanned instruction. -/
def scanRev : List Instr → Finset Nat → Finset Nat × List Bool
  | [], s => (s, [])
  | i :: rest, s =>
    match i with
    | .load p =>
      let r := scanRev rest (insert p s)
      (r.1, false :: r.2)
    | .store p _ _ =>
      if p ∈ s then
        let r := scanRev rest (s.erase p)
        (r.1, false :: r.2)
      else
        let r := scanRev rest s
        (r.1, true :: r.2)
    | .other =>
      let r := scanRev rest s
      (r.1, false :: r.2)

/-- The erase flags the marking phase computes for block `b` (aligned with
`(G.body b).reverse`).  The phase mutates only `loads_out[BB]` of the
block being scanned, and each block occurs once in `order` (proved below),
so the blocks are independent. -/
def marksOf (G : CFG) (b : Nat) : List Bool :=
  (scanRev (G.body b).reverse ((solve G).loads_out b)).2

/-- Drop the flagged instructions (the final `eraseFromParent` loop;
candidates are collected first and erased afterwards, so positions refer
to the original list). -/
def filterKeep : List Instr → List Bool → List Instr
  | [], _ => []
  | es, [] => es
  | i :: es, f :: fs => if f then filterKeep es fs else i :: filterKeep es fs

/-- The instruction list of block `b` after the pass ran.  Only scheduled
(reachable) blocks are scanned; every other block keeps its list. -/
def runBody (G : CFG) (b : Nat) : List Instr :=
  if b ∈ order G then (filterKeep (G.body b).reverse (marksOf G b)).reverse
  else G.body b

/-- The pass's return value: `!toErase.empty()`. -/
def runChanged (G : CFG) : Bool :=
  (order G).any (fun b => (marksOf G b).any (fun f => f))

/-- The whole `runOnFunction` as a function-to-function transform: same
graph, instruction lists with the dead stores removed. -/
def runOnFunction (G : CFG) : CFG :=
  { G with body := runBody G }

/-- Erase the attributes of a store the pass never reads (stored value and
volatile flag), keeping the pointer operand; loads and `other` are kept
as they are.  Two instruction lists with the same `keyOf` image are
indistinguishable to the pass. -/
def keyOf : Instr → Instr
  | .store p _ _ => .store p 0 false
  | i => i

/-! ### Concrete fixtures from the spec's test list -/

/-- Single block `store L1; store L1`, no successors. -/
def G3 : CFG :=
  { n := 1, entry := 0, succs := fun _ => []
    body := fun b => match b with
      | 0 => [.store 1 0 false, .store 1 0 false]
      | _ => []
    entry_lt := Nat.one_pos
    succs_lt := fun _ _ hs => absurd hs (List.not_mem_nil _) }

/-- Single self-loop block `store L1; load L1`. -/
def G4a : CFG :=
  { n := 1, entry := 0, succs := fun _ => [0]
    body := fun b => match b with
      | 0 => [.store 1 0 false, .load 1]
      | _ => []
    entry_lt := Nat.one_pos
    succs_lt := by intro b s hs; simp only [List.mem_singleton] at hs; omega }

/-- Same block, self-loop edge removed. -/
def G4b : CFG :=
  { n := 1, entry := 0, succs := fun _ => []
    body := fun b => match b with
      | 0 => [.store 1 0 false, .load 1]
      | _ => []
    entry_lt := Nat.one_pos
    succs_lt := fun _ _ hs => absurd hs (List.not_mem_nil _) }

/-- Entry block 0 with no edges, block 1 unreachable and holding a
dead-looking store. -/
def G7 : CFG :=
  { n := 2, entry := 0, succs := fun _ => []
    body := fun b => match b with
      | 1 => [.store 1 0 false]
      | _ => []
    entry_lt := by omega
    succs_lt := fun _ _ hs => absurd hs (List.not_mem_nil _) }

/-- `G3` with different stored values and volatile flags on the stores. -/
def G9 : CFG :=
  { n := 1, entry := 0, succs := fun _ => []
    body := fun b => match b with
      | 0 => [.store 1 7 true, .store 1 3 true]
      | _ => []
    entry_lt := Nat.one_pos
    succs_lt := fun _ _ hs => absurd hs (List.not_mem_nil _) }

/-- Single self-loop block containing `load L1`. -/
def G10 : CFG :=
  { n := 1, entry := 0, succs := fun _ => [0]
    body := fun b => match b with
      | 0 => [.load 1]
      | _ => []
    entry_lt := Nat.one_pos
    succs_lt := by intro b s hs; simp only [List.mem_singleton] at hs; omega }

/-! ### Derived notions used by the verification -/

/-- Front-to-back iteration of `step`, i.e. the set evolution of the
marking scan on an already reversed list. -/
def foldStep (l : List Instr) (s : Finset Nat) : Finset Nat :=
  l.foldl (fun s i => step i s) s

/-- Pointwise inclusion of the two solver maps. -/
def mapsLe (a b : SState) : Prop :=
  (∀ x, a.loads_in x ⊆ b.loads_in x) ∧ (∀ x, a.loads_out x ⊆ b.loads_out x)

/-- The growth invariant of the Gauss–Seidel iteration: every set is below
its own recomputation, so sets only ever grow. -/
def GInv (G : CFG) (st : SState) : Prop :=
  ∀ b ∈ order G,
    st.loads_out b ⊆ succUnion st.loads_in (G.succs b) ∧
    st.loads_in b ⊆ transferB (G.body b) (st.loads_out b)

/-- All solver sets stay inside the finite lattice of load pointers. -/
def BInv (G : CFG) (st : SState) : Prop :=
  ∀ x, st.loads_in x ⊆ allLoadLocs G ∧ st.loads_out x ⊆ allLoadLocs G

/-- The termination measure: total size of all scheduled sets. -/
def msum (G : CFG) (st : SState) : Nat :=
  ((order G).map (fun b => (st.loads_in b).card + (st.loads_out b).card)).sum

/-- The induction statement for one recursive `dfsPostorder` call on an
unvisited node, at a given fuel: the call appends a block `Δ` of new
nodes, all reachable from `node`, with `node` itself among them; every
successor of an appended node ends up visited; and every successor edge
out of an appended node either points earlier in the final sequence or
points to a node that reaches it (the pending ancestors, which are the
only visited-but-not-appended nodes, all reach `node`). -/
def dfsSpec (G : CFG) (fuel : Nat) : Prop :=
  ∀ (node : Nat) (v : Finset Nat) (o : List Nat),
    node < G.n → node ∉ v →
    (∀ x ∈ v, x < G.n) →
    ((Finset.range G.n) \ v).card < fuel →
    (∀ x ∈ v, x ∉ o → Reach G x node) →
    ∃ Δ : List Nat,
      dfsPostorder G.succs fuel node (v, o) = (v ∪ Δ.toFinset, o ++ Δ) ∧
      Δ.Nodup ∧
      (∀ x ∈ Δ, x ∉ v) ∧
      (∀ x ∈ Δ, x < G.n) ∧
      node ∈ Δ ∧
      (∀ x ∈ Δ, Reach G node x) ∧
      (∀ x ∈ Δ, ∀ s ∈ G.succs x, s ∈ v ∪ Δ.toFinset) ∧
      (∀ x ∈ Δ, ∀ s ∈ G.succs x, ordBefore s x (o ++ Δ) ∨ Reach G s x)

/-- The instruction stream of a chain of whole blocks, in execution order. -/
def pathInstrs (G : CFG) (bs : List Nat) : List Instr :=
  (bs.map G.body).join

/-- A state closed under one recomputation of the dataflow equations of
`G`: the recomputed sets are below the stored ones. -/
def closedFor (G : CFG) (y : SState) : Prop :=
  ∀ b ∈ order G,
    succUnion y.loads_in (G.succs b) ⊆ y.loads_out b ∧
    transferB (G.body b) (y.loads_out b) ⊆ y.loads_in b

/-! ### Basic facts about the transfer function -/

theorem step_store (p v : Nat) (vol : Bool) (s : Finset Nat) :
    step (.store p v vol) s = s.erase p := by
  by_cases h : p ∈ s <;> simp [step, h, Finset.erase_eq_of_not_mem]

theorem step_store_subset (p v : Nat) (vol : Bool) (s : Finset Nat) :
    step (.store p v vol) s ⊆ s := by
  rw [step_store]; exact Finset.erase_subset p s

theorem step_mono {s t : Finset Nat} (h : s ⊆ t) (i : Instr) : step i s ⊆ step i t := by
  cases i with
  | load p => simpa [step] using Finset.insert_subset_insert p h
  | store p v vol =>
      rw [step_store, step_store]; exact Finset.erase_subset_erase p h
  | other => simpa [step] using h

theorem transferB_nil (s : Finset Nat) : transferB [] s = s := rfl

theorem transferB_cons (i : Instr) (es : List Instr) (s : Finset Nat) :
    transferB (i :: es) s = step i (transferB es s) := rfl

theorem transferB_mono {s t : Finset Nat} (h : s ⊆ t) (es : List Instr) :
    transferB es s ⊆ transferB es t := by
  induction es with
  | nil => simpa [transferB] using h
  | cons i rest ih => simpa [transferB_cons] using step_mono ih i

theorem loadPtrs_nil : loadPtrs [] = ∅ := rfl

theorem loadPtrs_load_cons (p : Nat) (es : List Instr) :
    loadPtrs (.load p :: es) = insert p (loadPtrs es) := rfl

theorem loadPtrs_store_cons (p v : Nat) (vol : Bool) (es : List Instr) :
    loadPtrs (.store p v vol :: es) = loadPtrs es := rfl

theorem loadPtrs_other_cons (es : List Instr) :
    loadPtrs (.other :: es) = loadPtrs es := rfl

theorem transferB_subset (es : List Instr) (s : Finset Nat) :
    transferB es s ⊆ s ∪ loadPtrs es := by
  induction es with
  | nil => simp [transferB]
  | cons i rest ih =>
    rw [transferB_cons]
    cases i with
    | load p =>
      intro x hx
      rw [loadPtrs_load_cons]
      rcases Finset.mem_insert.mp hx with h | h
      · subst h; simp
      · rcases Finset.mem_union.mp (ih h) with h | h
        · exact Finset.mem_union_left _ h
        · exact Finset.mem_union_right _ (Finset.mem_insert_of_mem h)
    | store p v vol =>
      intro x hx
      have hx2 := ih (step_store_subset p v vol _ hx)
      simpa [loadPtrs_store_cons] using hx2
    | other =>
      intro x hx
      have hx2 := ih hx
      simpa [loadPtrs_other_cons] using hx2

theorem mem_transferB (p : Nat) (es : List Instr) (s : Finset Nat) :
    p ∈ transferB es s ↔
      firstAcc p es = some true ∨ (firstAcc p es = none ∧ p ∈ s) := by
  induction es with
  | nil => simp [transferB, firstAcc]
  | cons i rest ih =>
    rw [transferB_cons]
    cases i with
    | load q =>
      by_cases hq : q = p
      · subst hq; simp [step, firstAcc]
      · have hne : ¬ p = q := fun h => hq h.symm
        simp [step, firstAcc, hq, hne, ih]
    | store q v vol =>
      rw [step_store]
      by_cases hq : q = p
      · subst hq; simp [firstAcc]
      · have hne : p ≠ q := fun h => hq h.symm
        simp [firstAcc, hq, Finset.mem_erase, hne, ih]
    | other => simp [step, firstAcc, ih]

theorem firstAcc_append_some {p : Nat} {xs : List Instr} {b : Bool}
    (h : firstAcc p xs = some b) (ys : List Instr) :
    firstAcc p (xs ++ ys) = some b := by
  induction xs with
  | nil => simp [firstAcc] at h
  | cons i rest ih =>
    cases i with
    | load q =>
      by_cases hq : q = p
      · simp_all [firstAcc, hq]
      · simp_all [firstAcc, hq]
    | store q v vol =>
      by_cases hq : q = p
      · simp_all [firstAcc, hq]
      · simp_all [firstAcc, hq]
    | other => simp_all [firstAcc]

theorem firstAcc_append_none {p : Nat} {xs : List Instr}
    (h : firstAcc p xs = none) (ys : List Instr) :
    firstAcc p (xs ++ ys) = firstAcc p ys := by
  induction xs with
  | nil => simp
  | cons i rest ih =>
    cases i with
    | load q =>
      by_cases hq : q = p
      · simp_all [firstAcc, hq]
      · simp_all [firstAcc, hq]
    | store q v vol =>
      by_cases hq : q = p
      · simp_all [firstAcc, hq]
      · simp_all [firstAcc, hq]
    | other => simp_all [firstAcc]

theorem mem_succUnion {lin : Nat → Finset Nat} {ss : List Nat} {p : Nat} :
    p ∈ succUnion lin ss ↔ ∃ s ∈ ss, p ∈ lin s := by
  have key : ∀ (ss : List Nat) (acc : Finset Nat),
      p ∈ ss.foldl (fun acc s => acc ∪ lin s) acc ↔ p ∈ acc ∨ ∃ s ∈ ss, p ∈ lin s := by
    intro ss
    induction ss with
    | nil => intro acc; simp
    | cons a rest ih =>
      intro acc
      simp only [List.foldl_cons, ih, Finset.mem_union, List.mem_cons]
      constructor
      · rintro ((h | h) | ⟨s, hs, hp⟩)
        · exact Or.inl h
        · exact Or.inr ⟨a, Or.inl rfl, h⟩
        · exact Or.inr ⟨s, Or.inr hs, hp⟩
      · rintro (h | ⟨s, (rfl | hs), hp⟩)
        · exact Or.inl (Or.inl h)
        · exact Or.inl (Or.inr hp)
        · exact Or.inr ⟨s, hs, hp⟩
  simpa [succUnion] using key ss ∅

theorem succUnion_mono {lin lin' : Nat → Finset Nat} (h : ∀ x, lin x ⊆ lin' x)
    (ss : List Nat) : succUnion lin ss ⊆ succUnion lin' ss := by
  intro p hp
  rcases mem_succUnion.mp hp with ⟨s, hs, hmem⟩
  exact mem_succUnion.mpr ⟨s, hs, h s hmem⟩

theorem succUnion_subset {lin : Nat → Finset Nat} {ss : List Nat} {L : Finset Nat}
    (h : ∀ s ∈ ss, lin s ⊆ L) : succUnion lin ss ⊆ L := by
  intro p hp
  rcases mem_succUnion.mp hp with ⟨s, hs, hmem⟩
  exact h s hs hmem

theorem mem_succUnion_of {lin : Nat → Finset Nat} {ss : List Nat} {s p : Nat}
    (hs : s ∈ ss) (hp : p ∈ lin s) : p ∈ succUnion lin ss :=
  mem_succUnion.mpr ⟨s, hs, hp⟩

/-! ### Facts about the marking scan -/

theorem foldStep_nil (s : Finset Nat) : foldStep [] s = s := rfl

theorem foldStep_cons (i : Instr) (l : List Instr) (s : Finset Nat) :
    foldStep (i :: l) s = foldStep l (step i s) := rfl

theorem foldStep_mono {s t : Finset Nat} (h : s ⊆ t) (l : List Instr) :
    foldStep l s ⊆ foldStep l t := by
  induction l generalizing s t with
  | nil => simpa [foldStep] using h
  | cons i rest ih => simpa [foldStep_cons] using ih (step_mono h i)

theorem transferB_eq_foldStep (es : List Instr) (s : Finset Nat) :
    transferB es s = foldStep es.reverse s := by
  simp only [foldStep, List.foldl_reverse, transferB]

theorem scanRev_fst (l : List Instr) (s : Finset Nat) :
    (scanRev l s).1 = foldStep l s := by
  induction l generalizing s with
  | nil => rfl
  | cons i rest ih =>
    cases i with
    | load p => simp [scanRev, foldStep_cons, step, ih]
    | store p v vol =>
      by_cases hp : p ∈ s <;> simp [scanRev, hp, foldStep_cons, step, ih]
    | other => simp [scanRev, foldStep_cons, step, ih]

theorem scanRev_length (l : List Instr) (s : Finset Nat) :
    (scanRev l s).2.length = l.length := by
  induction l generalizing s with
  | nil => rfl
  | cons i rest ih =>
    cases i with
    | load p => simp [scanRev, ih]
    | store p v vol => by_cases hp : p ∈ s <;> simp [scanRev, hp, ih]
    | other => simp [scanRev, ih]

theorem scanRev_mark {l : List Instr} {s : Finset Nat} {j : Nat}
    (h : (scanRev l s).2.get? j = some true) :
    ∃ p v vol, l.get? j = some (.store p v vol) ∧ p ∉ foldStep (l.take j) s := by
  induction l generalizing s j with
  | nil => simp [scanRev] at h
  | cons i rest ih =>
    cases i with
    | load p =>
      cases j with
      | zero => simp [scanRev] at h
      | succ j =>
        simp only [scanRev, List.get?] at h
        rcases ih h with ⟨q, v, vol, hget, hmem⟩
        exact ⟨q, v, vol, hget, by simpa [List.take, foldStep_cons, step] using hmem⟩
    | store p v vol =>
      by_cases hp : p ∈ s
      · cases j with
        | zero => simp [scanRev, hp] at h
        | succ j =>
          simp only [scanRev, hp, if_pos, List.get?] at h
          rcases ih h with ⟨q, v', vol', hget, hmem⟩
          refine ⟨q, v', vol', hget, ?_⟩
          simpa [List.take, foldStep_cons, step, hp] using hmem
      · cases j with
        | zero =>
          refine ⟨p, v, vol, rfl, ?_⟩
          simpa [foldStep] using hp
        | succ j =>
          simp only [scanRev, hp, if_neg, List.get?] at h
          rcases ih h with ⟨q, v', vol', hget, hmem⟩
          refine ⟨q, v', vol', hget, ?_⟩
          simpa [List.take, foldStep_cons, step, hp] using hmem
    | other =>
      cases j with
      | zero => simp [scanRev] at h
      | succ j =>
        simp only [scanRev, List.get?] at h
        rcases ih h with ⟨q, v, vol, hget, hmem⟩
        exact ⟨q, v, vol, hget, by simpa [List.take, foldStep_cons, step] using hmem⟩

/-! ### The solver: one block visit, characterized -/

theorem upd_same (m : Nat → Finset Nat) (b : Nat) (v : Finset Nat) : upd m b v b = v := by
  simp [upd]

theorem upd_self (m : Nat → Finset Nat) (b : Nat) : upd m b (m b) = m := by
  funext x
  by_cases h : x = b <;> simp [upd, h]

theorem upd_other {x b : Nat} (m : Nat → Finset Nat) (v : Finset Nat) (h : x ≠ b) :
    upd m b v x = m x := by
  simp [upd, h]

theorem SState.ext {a b : SState} (h1 : a.loads_in = b.loads_in)
    (h2 : a.loads_out = b.loads_out) (h3 : a.changed = b.changed) : a = b := by
  cases a; cases b; simp_all

/-- `visitBlock` componentwise: both maps are updated at `b` with the
recomputed sets (a no-op update when they did not change), and `changed`
is raised exactly when one of the two comparisons fired. -/
theorem visitBlock_parts (G : CFG) (st : SState) (b : Nat) :
    (visitBlock G st b).loads_in =
      upd st.loads_in b (transferB (G.body b) (succUnion st.loads_in (G.succs b))) ∧
    (visitBlock G st b).loads_out =
      upd st.loads_out b (succUnion st.loads_in (G.succs b)) ∧
    (visitBlock G st b).changed =
      (if succUnion st.loads_in (G.succs b) = st.loads_out b then
        (if transferB (G.body b) (succUnion st.loads_in (G.succs b)) = st.loads_in b
          then st.changed else true)
       else true) := by
  by_cases h1 : succUnion st.loads_in (G.succs b) = st.loads_out b
  · simp only [visitBlock, ne_eq, h1, not_true_eq_false, if_false, upd_same]
    by_cases h2 : transferB (G.body b) (st.loads_out b) = st.loads_in b
    · simp [h2, upd_self]
    · simp [h2, upd_self]
  · simp only [visitBlock, ne_eq, h1, not_false_eq_true, if_true, upd_same]
    by_cases h2 : transferB (G.body b) (succUnion st.loads_in (G.succs b)) = st.loads_in b
    · simp [h1, h2, upd_self]
    · simp [h1, h2, upd_self]

theorem mapsLe_refl (a : SState) : mapsLe a a :=
  ⟨fun _ => Finset.Subset.refl _, fun _ => Finset.Subset.refl _⟩

theorem mapsLe_trans {a b c : SState} (h1 : mapsLe a b) (h2 : mapsLe b c) : mapsLe a c :=
  ⟨fun x => (h1.1 x).trans (h2.1 x), fun x => (h1.2 x).trans (h2.2 x)⟩

theorem GInv_init (G : CFG) : GInv G initState := by
  intro b _
  constructor <;> intro x hx <;> simp [initState] at hx

theorem visitBlock_grow {G : CFG} {st : SState} {b : Nat}
    (hb : b ∈ order G) (hInv : GInv G st) :
    mapsLe st (visitBlock G st b) ∧ GInv G (visitBlock G st b) := by
  obtain ⟨hin_eq, hout_eq, -⟩ := visitBlock_parts G st b
  have hout : st.loads_out b ⊆ succUnion st.loads_in (G.succs b) := (hInv b hb).1
  have hin : st.loads_in b ⊆ transferB (G.body b) (succUnion st.loads_in (G.succs b)) :=
    (hInv b hb).2.trans (transferB_mono hout (G.body b))
  have hle : mapsLe st (visitBlock G st b) := by
    constructor <;> intro x <;> by_cases hx : x = b
    · subst hx; rw [hin_eq, upd_same]; exact hin
    · rw [hin_eq, upd_other _ _ hx]
    · subst hx; rw [hout_eq, upd_same]; exact hout
    · rw [hout_eq, upd_other _ _ hx]
  refine ⟨hle, ?_⟩
  intro c hc
  by_cases hcb : c = b
  · subst hcb
    constructor
    · rw [hout_eq, upd_same]
      exact succUnion_mono hle.1 (G.succs c)
    · rw [hin_eq, hout_eq, upd_same, upd_same]
  · constructor
    · rw [hout_eq, upd_other _ _ hcb]
      exact ((hInv c hc).1).trans (succUnion_mono hle.1 (G.succs c))
    · rw [hin_eq, hout_eq, upd_other _ _ hcb, upd_other _ _ hcb]
      exact (hInv c hc).2

theorem visitBlock_changed_mono {G : CFG} {st : SState} {b : Nat}
    (h : st.changed = true) : (visitBlock G st b).changed = true := by
  rw [(visitBlock_parts G st b).2.2]
  split_ifs <;> simp [h]

theorem visitBlock_nochange {G : CFG} {st : SState} {b : Nat}
    (h : (visitBlock G st b).changed = false) :
    st.changed = false ∧ visitBlock G st b = st ∧
    succUnion st.loads_in (G.succs b) = st.loads_out b ∧
    transferB (G.body b) (st.loads_out b) = st.loads_in b := by
  obtain ⟨hin_eq, hout_eq, hch_eq⟩ := visitBlock_parts G st b
  rw [hch_eq] at h
  by_cases h1 : succUnion st.loads_in (G.succs b) = st.loads_out b
  · rw [if_pos h1] at h
    by_cases h2 : transferB (G.body b) (succUnion st.loads_in (G.succs b)) = st.loads_in b
    · rw [if_pos h2] at h
      have h2' : transferB (G.body b) (st.loads_out b) = st.loads_in b := by
        rw [← h1]; exact h2
      refine ⟨h, ?_, h1, h2'⟩
      refine SState.ext ?_ ?_ ?_
      · rw [hin_eq, h2, upd_self]
      · rw [hout_eq, h1, upd_self]
      · rw [hch_eq, if_pos h1, if_pos h2, h]
    · rw [if_neg h2] at h; exact absurd h (by simp)
  · rw [if_neg h1] at h; exact absurd h (by simp)

/-! ### Boundedness, the measure, and convergence of the while loop -/

theorem loadPtrs_subset_fold {body : Nat → List Instr} {b : Nat} :
    ∀ {l : List Nat}, b ∈ l →
      loadPtrs (body b) ⊆ l.foldr (fun c acc => loadPtrs (body c) ∪ acc) ∅ := by
  intro l hb
  induction l with
  | nil => cases hb
  | cons c rest ih =>
    rcases List.mem_cons.mp hb with rfl | hb2
    · exact Finset.subset_union_left
    · exact (ih hb2).trans Finset.subset_union_right

theorem loadPtrs_subset_allLoadLocs {G : CFG} {b : Nat} (hb : b ∈ order G) :
    loadPtrs (G.body b) ⊆ allLoadLocs G :=
  loadPtrs_subset_fold hb

theorem BInv_init (G : CFG) : BInv G initState := by
  intro x
  constructor <;> intro p hp <;> simp [initState] at hp

theorem visitBlock_BInv {G : CFG} {st : SState} {b : Nat}
    (hb : b ∈ order G) (hB : BInv G st) : BInv G (visitBlock G st b) := by
  obtain ⟨hin_eq, hout_eq, -⟩ := visitBlock_parts G st b
  have hout : succUnion st.loads_in (G.succs b) ⊆ allLoadLocs G :=
    succUnion_subset (fun s _ => (hB s).1)
  have hin : transferB (G.body b) (succUnion st.loads_in (G.succs b)) ⊆ allLoadLocs G :=
    (transferB_subset _ _).trans
      (Finset.union_subset hout (loadPtrs_subset_allLoadLocs hb))
  intro x
  by_cases hx : x = b
  · subst hx
    rw [hin_eq, hout_eq, upd_same, upd_same]
    exact ⟨hin, hout⟩
  · rw [hin_eq, hout_eq, upd_other _ _ hx, upd_other _ _ hx]
    exact hB x

theorem msum_le {G : CFG} {a b : SState} (h : mapsLe a b) : msum G a ≤ msum G b := by
  unfold msum
  refine List.sum_le_sum ?_
  intro i _
  exact Nat.add_le_add (Finset.card_le_card (h.1 i)) (Finset.card_le_card (h.2 i))

theorem map_sum_lt {α : Type} {l : List α} {f g : α → Nat}
    (hle : ∀ i ∈ l, f i ≤ g i) {b : α} (hb : b ∈ l) (hlt : f b < g b) :
    (l.map f).sum < (l.map g).sum := by
  induction l with
  | nil => cases hb
  | cons x rest ih =>
    simp only [List.map_cons, List.sum_cons]
    rcases List.mem_cons.mp hb with rfl | hb2
    · have hrest : (rest.map f).sum ≤ (rest.map g).sum :=
        List.sum_le_sum (fun i hi => hle i (List.mem_cons_of_mem _ hi))
      omega
    · have h1 : f x ≤ g x := hle x (List.mem_cons_self _ _)
      have h2 := ih (fun i hi => hle i (List.mem_cons_of_mem _ hi)) hb2
      omega

theorem msum_lt {G : CFG} {a c : SState} (h : mapsLe a c) {b : Nat} (hb : b ∈ order G)
    (hstrict : (a.loads_in b).card + (a.loads_out b).card <
               (c.loads_in b).card + (c.loads_out b).card) :
    msum G a < msum G c := by
  unfold msum
  refine map_sum_lt ?_ hb hstrict
  intro i _
  exact Nat.add_le_add (Finset.card_le_card (h.1 i)) (Finset.card_le_card (h.2 i))

theorem msum_le_bound {G : CFG} {st : SState} (hB : BInv G st) :
    msum G st ≤ solveBound G := by
  have h := List.sum_le_card_nsmul
      ((order G).map fun b => (st.loads_in b).card + (st.loads_out b).card)
      (2 * (allLoadLocs G).card) ?_
  · unfold msum solveBound
    have hlen : ((order G).map fun b =>
        (st.loads_in b).card + (st.loads_out b).card).length = (order G).length := by
      simp
    rw [hlen, smul_eq_mul] at h
    have harith : (order G).length * (2 * (allLoadLocs G).card) =
        2 * (order G).length * (allLoadLocs G).card := by ring
    rw [harith] at h
    exact h
  · intro x hx
    rcases List.mem_map.mp hx with ⟨b, hb, rfl⟩
    have h1 := Finset.card_le_card (hB b).1
    have h2 := Finset.card_le_card (hB b).2
    omega

theorem visitBlock_strict {G : CFG} {st : SState} {b : Nat}
    (hb : b ∈ order G) (hInv : GInv G st)
    (hch : st.changed = false) (h : (visitBlock G st b).changed = true) :
    msum G st < msum G (visitBlock G st b) := by
  obtain ⟨hin_eq, hout_eq, hch_eq⟩ := visitBlock_parts G st b
  have hgrow := visitBlock_grow hb hInv
  rw [hch_eq] at h
  by_cases h1 : succUnion st.loads_in (G.succs b) = st.loads_out b
  · rw [if_pos h1] at h
    by_cases h2 : transferB (G.body b) (succUnion st.loads_in (G.succs b)) = st.loads_in b
    · rw [if_pos h2, hch] at h; cases h
    · rw [if_neg h2] at h
      refine msum_lt hgrow.1 hb ?_
      have hsub : st.loads_in b ⊆ (visitBlock G st b).loads_in b := hgrow.1.1 b
      have hne : st.loads_in b ≠ (visitBlock G st b).loads_in b := by
        rw [hin_eq, upd_same]
        intro hcontra
        exact h2 hcontra.symm
      have hcard : (st.loads_in b).card < ((visitBlock G st b).loads_in b).card :=
        Finset.card_lt_card (Finset.ssubset_iff_subset_ne.mpr ⟨hsub, hne⟩)
      have houtle : (st.loads_out b).card ≤ ((visitBlock G st b).loads_out b).card :=
        Finset.card_le_card (hgrow.1.2 b)
      omega
  · refine msum_lt hgrow.1 hb ?_
    have hsub : st.loads_out b ⊆ (visitBlock G st b).loads_out b := hgrow.1.2 b
    have hne : st.loads_out b ≠ (visitBlock G st b).loads_out b := by
      rw [hout_eq, upd_same]
      intro hcontra
      exact h1 hcontra.symm
    have hcard : (st.loads_out b).card < ((visitBlock G st b).loads_out b).card :=
      Finset.card_lt_card (Finset.ssubset_iff_subset_ne.mpr ⟨hsub, hne⟩)
    have hinle : (st.loads_in b).card ≤ ((visitBlock G st b).loads_in b).card :=
      Finset.card_le_card (hgrow.1.1 b)
    omega

/-! ### Folding block visits over the schedule -/

theorem foldVisit_grow {G : CFG} : ∀ {l : List Nat}, (∀ b ∈ l, b ∈ order G) →
    ∀ {st : SState}, GInv G st →
      mapsLe st (l.foldl (visitBlock G) st) ∧ GInv G (l.foldl (visitBlock G) st) := by
  intro l
  induction l with
  | nil => intro _ st h; exact ⟨mapsLe_refl st, h⟩
  | cons b rest ih =>
    intro hl st hInv
    simp only [List.foldl_cons]
    have hb : b ∈ order G := hl b (List.mem_cons_self _ _)
    have hv := visitBlock_grow hb hInv
    have hrest := ih (fun c hc => hl c (List.mem_cons_of_mem _ hc)) hv.2
    exact ⟨mapsLe_trans hv.1 hrest.1, hrest.2⟩

theorem foldVisit_BInv {G : CFG} : ∀ {l : List Nat}, (∀ b ∈ l, b ∈ order G) →
    ∀ {st : SState}, BInv G st → BInv G (l.foldl (visitBlock G) st) := by
  intro l
  induction l with
  | nil => intro _ st h; exact h
  | cons b rest ih =>
    intro hl st hB
    simp only [List.foldl_cons]
    exact ih (fun c hc => hl c (List.mem_cons_of_mem _ hc))
      (visitBlock_BInv (hl b (List.mem_cons_self _ _)) hB)

theorem foldVisit_strict {G : CFG} : ∀ {l : List Nat}, (∀ b ∈ l, b ∈ order G) →
    ∀ {st : SState}, GInv G st → st.changed = false →
      (l.foldl (visitBlock G) st).changed = true →
      msum G st < msum G (l.foldl (visitBlock G) st) := by
  intro l
  induction l with
  | nil =>
    intro _ st _ hch h
    rw [List.foldl_nil, hch] at h
    cases h
  | cons b rest ih =>
    intro hl st hInv hch h
    simp only [List.foldl_cons] at h ⊢
    have hb := hl b (List.mem_cons_self _ _)
    cases hvch : (visitBlock G st b).changed
    · obtain ⟨-, heq, -, -⟩ := visitBlock_nochange hvch
      rw [heq] at h ⊢
      exact ih (fun c hc => hl c (List.mem_cons_of_mem _ hc)) hInv hch h
    · have hstrict := visitBlock_strict hb hInv hch hvch
      have hgrow := visitBlock_grow hb hInv
      have hrest := foldVisit_grow (fun c hc => hl c (List.mem_cons_of_mem _ hc)) hgrow.2
      exact lt_of_lt_of_le hstrict (msum_le hrest.1)

theorem foldVisit_nochange {G : CFG} : ∀ {l : List Nat} {st : SState},
    (l.foldl (visitBlock G) st).changed = false →
    st.changed = false ∧ l.foldl (visitBlock G) st = st ∧
    ∀ b ∈ l, succUnion st.loads_in (G.succs b) = st.loads_out b ∧
      transferB (G.body b) (st.loads_out b) = st.loads_in b := by
  intro l
  induction l with
  | nil => intro st h; exact ⟨h, rfl, by simp⟩
  | cons b rest ih =>
    intro st h
    simp only [List.foldl_cons] at h ⊢
    obtain ⟨h1, heq, heqs⟩ := ih h
    obtain ⟨h0, heq0, e1, e2⟩ := visitBlock_nochange h1
    rw [heq0] at heqs
    refine ⟨h0, heq.trans heq0, ?_⟩
    intro c hc
    rcases List.mem_cons.mp hc with rfl | hc2
    · exact ⟨e1, e2⟩
    · exact heqs c hc2

/-! ### Pass-level and loop-level convergence -/

theorem pass_nochange {G : CFG} {st : SState} (h : (solverPass G st).changed = false) :
    solverPass G st = { st with changed := false } ∧
    ∀ b ∈ order G, succUnion st.loads_in (G.succs b) = st.loads_out b ∧
      transferB (G.body b) (st.loads_out b) = st.loads_in b := by
  obtain ⟨-, heq, heqs⟩ :=
    @foldVisit_nochange G (order G) { st with changed := false } h
  exact ⟨heq, heqs⟩

theorem pass_grow {G : CFG} {st : SState} (hInv : GInv G st) :
    mapsLe st (solverPass G st) ∧ GInv G (solverPass G st) :=
  @foldVisit_grow G (order G) (fun _ hb => hb) { st with changed := false } hInv

theorem pass_BInv {G : CFG} {st : SState} (hB : BInv G st) : BInv G (solverPass G st) :=
  @foldVisit_BInv G (order G) (fun _ hb => hb) { st with changed := false } hB

theorem pass_strict {G : CFG} {st : SState} (hInv : GInv G st)
    (h : (solverPass G st).changed = true) : msum G st < msum G (solverPass G st) :=
  @foldVisit_strict G (order G) (fun _ hb => hb) { st with changed := false } hInv rfl h

theorem pass_congr {G : CFG} {st st' : SState}
    (h1 : st.loads_in = st'.loads_in) (h2 : st.loads_out = st'.loads_out) :
    solverPass G st = solverPass G st' := by
  unfold solverPass
  have h3 : ({ st with changed := false } : SState) = { st' with changed := false } :=
    SState.ext h1 h2 rfl
  rw [h3]

theorem loop_conv {G : CFG} : ∀ (fuel : Nat) (st : SState),
    BInv G st → GInv G st → solveBound G < fuel + msum G st →
    (solverPass G (solverLoop G fuel st)).changed = false ∧
    BInv G (solverLoop G fuel st) ∧ GInv G (solverLoop G fuel st) ∧
    ∀ extra, solverLoop G (fuel + extra) st = solverLoop G fuel st := by
  intro fuel
  induction fuel with
  | zero =>
    intro st hB hG hbound
    have := msum_le_bound hB
    omega
  | succ fuel ih =>
    intro st hB hG hbound
    cases hch : (solverPass G st).changed
    · obtain ⟨heq, -⟩ := pass_nochange hch
      have hres : solverLoop G (fuel + 1) st = solverPass G st := by
        simp [solverLoop, hch]
      have hmaps : (solverPass G st).loads_in = st.loads_in ∧
          (solverPass G st).loads_out = st.loads_out := by
        rw [heq]; exact ⟨rfl, rfl⟩
      refine ⟨?_, ?_, ?_, ?_⟩
      · rw [hres, pass_congr hmaps.1 hmaps.2]
        exact hch
      · rw [hres, heq]
        intro x
        exact hB x
      · rw [hres, heq]
        intro b hb
        exact hG b hb
      · intro extra
        have ha : fuel + 1 + extra = (fuel + extra) + 1 := by omega
        rw [ha]
        have h2 : solverLoop G ((fuel + extra) + 1) st = solverPass G st := by
          simp [solverLoop, hch]
        rw [h2, hres]
    · have hgrow := pass_grow hG
      have hstrict := pass_strict hG hch
      have hB2 := pass_BInv hB
      have hbound2 : solveBound G < fuel + msum G (solverPass G st) := by omega
      obtain ⟨c1, c2, c3, c4⟩ := ih (solverPass G st) hB2 hgrow.2 hbound2
      have hres : solverLoop G (fuel + 1) st = solverLoop G fuel (solverPass G st) := by
        simp [solverLoop, hch]
      refine ⟨?_, ?_, ?_, ?_⟩
      · rw [hres]; exact c1
      · rw [hres]; exact c2
      · rw [hres]; exact c3
      · intro extra
        have ha : fuel + 1 + extra = (fuel + extra) + 1 := by omega
        rw [ha]
        have h2 : solverLoop G ((fuel + extra) + 1) st =
            solverLoop G (fuel + extra) (solverPass G st) := by
          simp [solverLoop, hch]
        rw [h2, hres]
        exact c4 extra

theorem solve_converged (G : CFG) :
    (solverPass G (solve G)).changed = false ∧
    BInv G (solve G) ∧ GInv G (solve G) ∧
    ∀ extra, solverLoop G (solveBound G + 1 + extra) initState = solve G := by
  have h := loop_conv (solveBound G + 1) initState (BInv_init G) (GInv_init G) (by omega)
  exact ⟨h.1, h.2.1, h.2.2.1, h.2.2.2⟩

/-- The converged solver state satisfies the dataflow equations at every
scheduled block. -/
theorem solve_eqns (G : CFG) : ∀ b ∈ order G,
    succUnion (solve G).loads_in (G.succs b) = (solve G).loads_out b ∧
    transferB (G.body b) ((solve G).loads_out b) = (solve G).loads_in b :=
  (pass_nochange (solve_converged G).1).2

/-! ### Correctness of the depth-first postorder -/

theorem get?_lt_length {α : Type} {l : List α} {i : Nat} {a : α} (h : l.get? i = some a) :
    i < l.length := by
  by_contra hcon
  push_neg at hcon
  rw [List.get?_eq_none.mpr hcon] at h
  cases h

theorem ordBefore_append {a b : Nat} {l : List Nat} (h : ordBefore a b l) (l2 : List Nat) :
    ordBefore a b (l ++ l2) := by
  obtain ⟨i, j, hij, hi, hj⟩ := h
  refine ⟨i, j, hij, ?_, ?_⟩
  · rw [List.get?_append (get?_lt_length hi)]
    exact hi
  · rw [List.get?_append (get?_lt_length hj)]
    exact hj

theorem ordBefore_mem_append {a b : Nat} {l : List Nat} (ha : a ∈ l) :
    ordBefore a b (l ++ [b]) := by
  obtain ⟨i, hi⟩ := List.mem_iff_get?.mp ha
  refine ⟨i, l.length, get?_lt_length hi, ?_, ?_⟩
  · rw [List.get?_append (get?_lt_length hi)]
    exact hi
  · rw [List.get?_append_right (le_refl _)]
    simp

theorem dfsSpec_zero (G : CFG) : dfsSpec G 0 := by
  intro node v o _ _ _ hfuel _
  exact absurd hfuel (Nat.not_lt_zero _)

theorem dfsFold_spec (G : CFG) (fuel : Nat) (hP : dfsSpec G fuel) :
    ∀ (l : List Nat) (root : Nat) (v : Finset Nat) (o : List Nat),
      (∀ s ∈ l, s < G.n) →
      (∀ s ∈ l, Reach G root s) →
      (∀ x ∈ v, x < G.n) →
      ((Finset.range G.n) \ v).card < fuel →
      (∀ x ∈ v, x ∉ o → Reach G x root) →
      ∃ Δ : List Nat,
        l.foldl (fun acc s => if s ∈ acc.1 then acc else dfsPostorder G.succs fuel s acc)
            (v, o) = (v ∪ Δ.toFinset, o ++ Δ) ∧
        Δ.Nodup ∧
        (∀ x ∈ Δ, x ∉ v) ∧
        (∀ x ∈ Δ, x < G.n) ∧
        (∀ x ∈ Δ, Reach G root x) ∧
        (∀ x ∈ Δ, ∀ s ∈ G.succs x, s ∈ v ∪ Δ.toFinset) ∧
        (∀ x ∈ Δ, ∀ s ∈ G.succs x, ordBefore s x (o ++ Δ) ∨ Reach G s x) ∧
        (∀ s ∈ l, s ∈ v ∪ Δ.toFinset) := by
  intro l
  induction l with
  | nil =>
    intro root v o _ _ _ _ _
    refine ⟨[], ?_, List.nodup_nil, ?_, ?_, ?_, ?_, ?_, ?_⟩ <;> simp
  | cons s rest ih =>
    intro root v o hl hreach hv hfuel hpend
    have hsl : s < G.n := hl s (List.mem_cons_self _ _)
    have hrs : Reach G root s := hreach s (List.mem_cons_self _ _)
    simp only [List.foldl_cons]
    by_cases hs : s ∈ v
    · rw [if_pos hs]
      obtain ⟨Δ, heq, hnodup, hnotv, hlt, hre, hclos, hedge, hmem⟩ :=
        ih root v o (fun c hc => hl c (List.mem_cons_of_mem _ hc))
          (fun c hc => hreach c (List.mem_cons_of_mem _ hc)) hv hfuel hpend
      refine ⟨Δ, heq, hnodup, hnotv, hlt, hre, hclos, hedge, ?_⟩
      intro t ht
      rcases List.mem_cons.mp ht with rfl | ht2
      · exact Finset.mem_union_left _ hs
      · exact hmem t ht2
    · rw [if_neg hs]
      obtain ⟨Δp, heqp, hnodupp, hnotvp, hltp, hmemp, hreachp, hclosp, hedgep⟩ :=
        hP s v o hsl hs hv hfuel
          (fun x hx hxo => Relation.ReflTransGen.trans (hpend x hx hxo) hrs)
      rw [heqp]
      have hv2 : ∀ x ∈ v ∪ Δp.toFinset, x < G.n := by
        intro x hx
        rcases Finset.mem_union.mp hx with h | h
        · exact hv x h
        · exact hltp x (List.mem_toFinset.mp h)
      have hfuel2 : ((Finset.range G.n) \ (v ∪ Δp.toFinset)).card < fuel := by
        refine lt_of_le_of_lt (Finset.card_le_card ?_) hfuel
        exact Finset.sdiff_subset_sdiff (Finset.Subset.refl _) Finset.subset_union_left
      have hpend2 : ∀ x ∈ v ∪ Δp.toFinset, x ∉ o ++ Δp → Reach G x root := by
        intro x hx hxo
        rcases Finset.mem_union.mp hx with h | h
        · refine hpend x h ?_
          intro hmem2
          exact hxo (List.mem_append_left _ hmem2)
        · exact absurd (List.mem_append_right _ (List.mem_toFinset.mp h)) hxo
      obtain ⟨Δr, heqr, hnodupr, hnotvr, hltr, hrer, hclosr, hedger, hmemr⟩ :=
        ih root (v ∪ Δp.toFinset) (o ++ Δp)
          (fun c hc => hl c (List.mem_cons_of_mem _ hc))
          (fun c hc => hreach c (List.mem_cons_of_mem _ hc)) hv2 hfuel2 hpend2
      have hseteq : (v ∪ Δp.toFinset) ∪ Δr.toFinset = v ∪ (Δp ++ Δr).toFinset := by
        rw [List.toFinset_append, Finset.union_assoc]
      have hlisteq : (o ++ Δp) ++ Δr = o ++ (Δp ++ Δr) := List.append_assoc o Δp Δr
      refine ⟨Δp ++ Δr, ?_, ?_, ?_, ?_, ?_, ?_, ?_, ?_⟩
      · rw [heqr, hseteq, hlisteq]
      · rw [List.nodup_append]
        refine ⟨hnodupp, hnodupr, ?_⟩
        intro x hx hx2
        exact hnotvr x hx2 (Finset.mem_union_right _ (List.mem_toFinset.mpr hx))
      · intro x hx
        rcases List.mem_append.mp hx with h | h
        · exact hnotvp x h
        · intro hv3
          exact hnotvr x h (Finset.mem_union_left _ hv3)
      · intro x hx
        rcases List.mem_append.mp hx with h | h
        · exact hltp x h
        · exact hltr x h
      · intro x hx
        rcases List.mem_append.mp hx with h | h
        · exact Relation.ReflTransGen.trans hrs (hreachp x h)
        · exact hrer x h
      · intro x hx t ht
        rw [← hseteq]
        rcases List.mem_append.mp hx with h | h
        · exact Finset.mem_union_left _ (hclosp x h t ht)
        · exact hclosr x h t ht
      · intro x hx t ht
        rcases List.mem_append.mp hx with h | h
        · rcases hedgep x h t ht with hord | hre2
          · left
            rw [← hlisteq]
            exact ordBefore_append hord Δr
          · right; exact hre2
        · rcases hedger x h t ht with hord | hre2
          · left
            rw [← hlisteq]
            exact hord
          · right; exact hre2
      · intro t ht
        rw [← hseteq]
        rcases List.mem_cons.mp ht with rfl | ht2
        · exact Finset.mem_union_left _
            (Finset.mem_union_right _ (List.mem_toFinset.mpr hmemp))
        · exact hmemr t ht2

theorem dfsSpec_succ (G : CFG) (fuel : Nat) (hP : dfsSpec G fuel) : dfsSpec G (fuel + 1) := by
  intro node v o hnode hnv hv hfuel hpend
  have hmemnode : node ∈ (Finset.range G.n) \ v :=
    Finset.mem_sdiff.mpr ⟨Finset.mem_range.mpr hnode, hnv⟩
  have hfuel2 : ((Finset.range G.n) \ insert node v).card < fuel := by
    rw [Finset.sdiff_insert, Finset.card_erase_of_mem hmemnode]
    have hpos : 0 < ((Finset.range G.n) \ v).card :=
      Finset.card_pos.mpr ⟨node, hmemnode⟩
    omega
  obtain ⟨Δq, heqq, hnodupq, hnotvq, hltq, hreachq, hclosq, hedgeq, hmemsq⟩ :=
    dfsFold_spec G fuel hP (G.succs node) node (insert node v) o
      (fun s hs => G.succs_lt node s hs)
      (fun s hs => Relation.ReflTransGen.single hs)
      (by
        intro x hx
        rcases Finset.mem_insert.mp hx with rfl | h
        · exact hnode
        · exact hv x h)
      hfuel2
      (by
        intro x hx hxo
        rcases Finset.mem_insert.mp hx with rfl | h
        · exact Relation.ReflTransGen.refl
        · exact hpend x h hxo)
  have hset : insert node v ∪ Δq.toFinset = v ∪ (Δq ++ [node]).toFinset := by
    ext x
    simp only [Finset.mem_union, Finset.mem_insert, List.mem_toFinset, List.mem_append,
      List.mem_singleton]
    tauto
  refine ⟨Δq ++ [node], ?_, ?_, ?_, ?_, ?_, ?_, ?_, ?_⟩
  · simp only [dfsPostorder]
    rw [heqq, hset, List.append_assoc]
  · rw [List.nodup_append]
    refine ⟨hnodupq, List.nodup_singleton _, ?_⟩
    intro x hx hx2
    rw [List.mem_singleton] at hx2
    subst hx2
    exact hnotvq x hx (Finset.mem_insert_self _ _)
  · intro x hx
    rcases List.mem_append.mp hx with h | h
    · exact fun hv2 => hnotvq x h (Finset.mem_insert_of_mem hv2)
    · rw [List.mem_singleton] at h; subst h; exact hnv
  · intro x hx
    rcases List.mem_append.mp hx with h | h
    · exact hltq x h
    · rw [List.mem_singleton] at h; subst h; exact hnode
  · exact List.mem_append_right _ (List.mem_singleton_self _)
  · intro x hx
    rcases List.mem_append.mp hx with h | h
    · exact hreachq x h
    · rw [List.mem_singleton] at h; subst h; exact Relation.ReflTransGen.refl
  · intro x hx t ht
    rw [← hset]
    rcases List.mem_append.mp hx with h | h
    · exact hclosq x h t ht
    · rw [List.mem_singleton] at h; subst h
      exact hmemsq t ht
  · intro x hx t ht
    rcases List.mem_append.mp hx with h | h
    · rcases hedgeq x h t ht with hord | hre
      · left
        rw [← List.append_assoc]
        exact ordBefore_append hord [node]
      · right; exact hre
    · rw [List.mem_singleton] at h; subst h
      have htv := hmemsq t ht
      rcases Finset.mem_union.mp htv with h2 | h2
      · rcases Finset.mem_insert.mp h2 with rfl | h3
        · right; exact Relation.ReflTransGen.refl
        · by_cases hto : t ∈ o
          · left
            rw [← List.append_assoc]
            exact ordBefore_mem_append (List.mem_append_left _ hto)
          · right
            exact hpend t h3 hto
      · left
        rw [← List.append_assoc]
        exact ordBefore_mem_append (List.mem_append_right _ (List.mem_toFinset.mp h2))

theorem dfsSpec_all (G : CFG) : ∀ fuel, dfsSpec G fuel := by
  intro fuel
  induction fuel with
  | zero => exact dfsSpec_zero G
  | succ fuel ih => exact dfsSpec_succ G fuel ih

/-- The four facts about the computed schedule: no duplicates, the entry
is scheduled, everything scheduled is reachable from the entry, the
schedule is closed under successors, and every successor edge either
points backwards in the sequence or to a node that reaches its source. -/
theorem order_core (G : CFG) :
    (order G).Nodup ∧
    G.entry ∈ order G ∧
    (∀ x ∈ order G, Reach G G.entry x) ∧
    (∀ x ∈ order G, ∀ s ∈ G.succs x, s ∈ order G) ∧
    (∀ x ∈ order G, ∀ s ∈ G.succs x, ordBefore s x (order G) ∨ Reach G s x) := by
  obtain ⟨Δ, heq, hnodup, -, -, hmem, hreach, hclos, hedge⟩ :=
    dfsSpec_all G (G.n + 1) G.entry ∅ [] G.entry_lt (Finset.not_mem_empty _)
      (by intro x hx; exact absurd hx (Finset.not_mem_empty _))
      (by simp)
      (by intro x hx; exact absurd hx (Finset.not_mem_empty _))
  have horder : order G = Δ := by
    unfold order
    rw [heq]
    rfl
  have hsetmem : ∀ x, x ∈ (∅ ∪ Δ.toFinset : Finset Nat) ↔ x ∈ Δ := by
    intro x
    simp
  refine ⟨?_, ?_, ?_, ?_, ?_⟩
  · rw [horder]; exact hnodup
  · rw [horder]; exact hmem
  · rw [horder]; exact hreach
  · intro x hx s hs
    rw [horder] at hx ⊢
    exact (hsetmem s).mp (hclos x hx s hs)
  · intro x hx s hs
    rw [horder] at hx ⊢
    exact hedge x hx s hs

theorem mem_order_iff_reach (G : CFG) (b : Nat) : b ∈ order G ↔ Reach G G.entry b := by
  constructor
  · exact fun h => (order_core G).2.2.1 b h
  · intro h
    induction h with
    | refl => exact (order_core G).2.1
    | tail hxy hstep ih => exact (order_core G).2.2.2.1 _ ih _ hstep

theorem succ_mem_order {G : CFG} {b s : Nat} (hb : b ∈ order G) (hs : s ∈ G.succs b) :
    s ∈ order G :=
  (order_core G).2.2.2.1 b hb s hs

/-! ### Soundness of the converged sets along execution paths -/

theorem pathInstrs_nil (G : CFG) : pathInstrs G [] = [] := rfl

theorem pathInstrs_cons (G : CFG) (c : Nat) (rest : List Nat) :
    pathInstrs G (c :: rest) = G.body c ++ pathInstrs G rest := by
  simp [pathInstrs]

/-- If some successor chain out of block `b` reads `p` before overwriting
it, then `p` is in the converged `loads_out` of `b`. -/
theorem path_live {G : CFG} {p : Nat} :
    ∀ (bs : List Nat) (b : Nat), b ∈ order G →
      List.Chain (fun a c => c ∈ G.succs a) b bs →
      firstAcc p (pathInstrs G bs) = some true →
      p ∈ (solve G).loads_out b := by
  intro bs
  induction bs with
  | nil =>
    intro b _ _ hacc
    rw [pathInstrs_nil] at hacc
    cases hacc
  | cons c rest ih =>
    intro b hb hchain hacc
    cases hchain with
    | cons hstep hchain2 =>
      have hc : c ∈ order G := succ_mem_order hb hstep
      rw [pathInstrs_cons] at hacc
      have hpc_in : p ∈ (solve G).loads_in c := by
        cases hfa : firstAcc p (G.body c) with
        | some val =>
          rw [firstAcc_append_some hfa] at hacc
          injection hacc with hval
          subst hval
          rw [← (solve_eqns G c hc).2]
          exact (mem_transferB p _ _).mpr (Or.inl hfa)
        | none =>
          rw [firstAcc_append_none hfa] at hacc
          have hpc : p ∈ (solve G).loads_out c := ih c hc hchain2 hacc
          rw [← (solve_eqns G c hc).2]
          exact (mem_transferB p _ _).mpr (Or.inr ⟨hfa, hpc⟩)
      rw [← (solve_eqns G b hb).1]
      exact mem_succUnion_of hstep hpc_in

/-- A raised erase flag at position `j` of the reversed scan of block `b`
is a store to some `p` with `p` dead at that point: `p` is not in the
backward transfer of the converged `loads_out` through the instructions
that follow the store in program order. -/
theorem marksOf_spec {G : CFG} {b : Nat} {j : Nat}
    (h : (marksOf G b).get? j = some true) :
    ∃ p v vol, (G.body b).reverse.get? j = some (.store p v vol) ∧
      p ∉ transferB ((G.body b).drop ((G.body b).length - j)) ((solve G).loads_out b) := by
  obtain ⟨p, v, vol, hget, hmem⟩ := scanRev_mark h
  refine ⟨p, v, vol, hget, ?_⟩
  rw [transferB_eq_foldStep]
  have hrev : ((G.body b).drop ((G.body b).length - j)).reverse = (G.body b).reverse.take j := by
    rw [List.take_reverse]
  rw [hrev]
  exact hmem

/-! ### The computed fixed point is least among closed states -/

theorem visitBlock_le_closed {G : CFG} {y st : SState} {b : Nat}
    (hb : b ∈ order G) (hcl : closedFor G y) (hle : mapsLe st y) :
    mapsLe (visitBlock G st b) y := by
  obtain ⟨hin_eq, hout_eq, -⟩ := visitBlock_parts G st b
  have hout : succUnion st.loads_in (G.succs b) ⊆ y.loads_out b :=
    (succUnion_mono hle.1 _).trans (hcl b hb).1
  have hin : transferB (G.body b) (succUnion st.loads_in (G.succs b)) ⊆ y.loads_in b :=
    (transferB_mono hout _).trans (hcl b hb).2
  constructor <;> intro x <;> by_cases hx : x = b
  · subst hx; rw [hin_eq, upd_same]; exact hin
  · rw [hin_eq, upd_other _ _ hx]; exact hle.1 x
  · subst hx; rw [hout_eq, upd_same]; exact hout
  · rw [hout_eq, upd_other _ _ hx]; exact hle.2 x

theorem foldVisit_le_closed {G : CFG} {y : SState} (hcl : closedFor G y) :
    ∀ {l : List Nat}, (∀ b ∈ l, b ∈ order G) → ∀ {st : SState}, mapsLe st y →
      mapsLe (l.foldl (visitBlock G) st) y := by
  intro l
  induction l with
  | nil => intro _ st h; exact h
  | cons b rest ih =>
    intro hl st hle
    simp only [List.foldl_cons]
    exact ih (fun c hc => hl c (List.mem_cons_of_mem _ hc))
      (visitBlock_le_closed (hl b (List.mem_cons_self _ _)) hcl hle)

theorem loop_le_closed {G : CFG} {y : SState} (hcl : closedFor G y) :
    ∀ (fuel : Nat) {st : SState}, mapsLe st y → mapsLe (solverLoop G fuel st) y := by
  intro fuel
  induction fuel with
  | zero => intro st h; exact h
  | succ fuel ih =>
    intro st hle
    have hpass : mapsLe (solverPass G st) y :=
      @foldVisit_le_closed G y hcl (order G) (fun _ hb => hb) { st with changed := false } hle
    simp only [solverLoop]
    cases hch : (solverPass G st).changed
    · simp only [Bool.false_eq_true, if_false]
      exact hpass
    · simp only [if_true]
      exact ih hpass

theorem solve_le_closed {G : CFG} {y : SState} (hcl : closedFor G y) :
    mapsLe (solve G) y := by
  refine loop_le_closed hcl _ ?_
  constructor <;> intro x <;> intro q hq <;> simp [initState] at hq

/-! ### Deleting flagged stores only enlarges the transfer -/

theorem filterKeep_nil (m : List Bool) : filterKeep [] m = [] := by
  cases m <;> rfl

theorem filterKeep_allfalse : ∀ {l : List Instr} {m : List Bool},
    (∀ f ∈ m, f = false) → filterKeep l m = l := by
  intro l
  induction l with
  | nil => intro m _; exact filterKeep_nil m
  | cons i es ih =>
    intro m hm
    cases m with
    | nil => rfl
    | cons f fs =>
      have hf : f = false := hm f (List.mem_cons_self _ _)
      subst hf
      simp only [filterKeep, Bool.false_eq_true, if_false]
      rw [ih (fun g hg => hm g (List.mem_cons_of_mem _ hg))]

theorem filterKeep_length_le : ∀ (l : List Instr) (m : List Bool),
    (filterKeep l m).length ≤ l.length := by
  intro l
  induction l with
  | nil => intro m; simp [filterKeep]
  | cons i es ih =>
    intro m
    cases m with
    | nil => exact le_refl _
    | cons f fs =>
      cases f
      · simp only [filterKeep, Bool.false_eq_true, if_false, List.length_cons]
        exact Nat.succ_le_succ (ih fs)
      · simp only [filterKeep, if_true, List.length_cons]
        exact le_trans (ih fs) (Nat.le_succ _)

theorem filterKeep_length_lt : ∀ {l : List Instr} {m : List Bool},
    m.length = l.length → (∃ f ∈ m, f = true) → (filterKeep l m).length < l.length := by
  intro l
  induction l with
  | nil =>
    intro m hlen hex
    obtain ⟨f, hf, -⟩ := hex
    rw [List.length_nil, List.length_eq_zero] at hlen
    subst hlen
    cases hf
  | cons i es ih =>
    intro m hlen hex
    cases m with
    | nil => obtain ⟨f, hf, -⟩ := hex; cases hf
    | cons g gs =>
      have hlen2 : gs.length = es.length := by simpa using hlen
      cases g
      · obtain ⟨f, hf, hft⟩ := hex
        rcases List.mem_cons.mp hf with rfl | hf2
        · cases hft
        · have hlt := ih hlen2 ⟨f, hf2, hft⟩
          simp only [filterKeep, Bool.false_eq_true, if_false, List.length_cons]
          omega
      · have hle := filterKeep_length_le es gs
        simp only [filterKeep, if_true, List.length_cons]
        omega

theorem foldStep_filterKeep : ∀ {l : List Instr} {m : List Bool} {S : Finset Nat},
    (∀ j, m.get? j = some true → ∃ p v vol, l.get? j = some (.store p v vol)) →
    foldStep l S ⊆ foldStep (filterKeep l m) S := by
  intro l
  induction l with
  | nil =>
    intro m S _
    rw [filterKeep_nil]
  | cons i es ih =>
    intro m S hst
    cases m with
    | nil => exact Finset.Subset.refl _
    | cons f fs =>
      cases f
      · have hfk : filterKeep (i :: es) (false :: fs) = i :: filterKeep es fs := by
          simp [filterKeep]
        rw [hfk, foldStep_cons, foldStep_cons]
        exact ih (fun j hj => hst (j + 1) hj)
      · obtain ⟨p, v, vol, hstore⟩ := hst 0 rfl
        simp only [List.get?] at hstore
        injection hstore with hi
        subst hi
        have hfk : filterKeep (Instr.store p v vol :: es) (true :: fs) = filterKeep es fs := by
          simp [filterKeep]
        rw [hfk, foldStep_cons, step_store]
        refine (foldStep_mono (Finset.erase_subset _ _) es).trans ?_
        exact ih (fun j hj => hst (j + 1) hj)

/-! ### Helper equations for the marking scan -/

theorem scanRev_load (p : Nat) (es : List Instr) (s : Finset Nat) :
    scanRev (.load p :: es) s =
      ((scanRev es (insert p s)).1, false :: (scanRev es (insert p s)).2) := rfl

theorem scanRev_store_mem {p : Nat} {s : Finset Nat} (h : p ∈ s) (v : Nat) (vol : Bool)
    (es : List Instr) :
    scanRev (.store p v vol :: es) s =
      ((scanRev es (s.erase p)).1, false :: (scanRev es (s.erase p)).2) := by
  simp [scanRev, h]

theorem scanRev_store_not_mem {p : Nat} {s : Finset Nat} (h : p ∉ s) (v : Nat) (vol : Bool)
    (es : List Instr) :
    scanRev (.store p v vol :: es) s = ((scanRev es s).1, true :: (scanRev es s).2) := by
  simp [scanRev, h]

theorem scanRev_other (es : List Instr) (s : Finset Nat) :
    scanRev (.other :: es) s = ((scanRev es s).1, false :: (scanRev es s).2) := rfl

/-- Re-scanning the surviving instructions from any larger starting set
raises no flag: every store kept by the first scan is still live. -/
theorem rescan_no_marks : ∀ (l : List Instr) (S1 S2 : Finset Nat), S1 ⊆ S2 →
    ∀ f ∈ (scanRev (filterKeep l (scanRev l S1).2) S2).2, f = false := by
  intro l
  induction l with
  | nil =>
    intro S1 S2 _ f hf
    simp [scanRev, filterKeep] at hf
  | cons i es ih =>
    intro S1 S2 hsub f hf
    cases i with
    | load p =>
      rw [scanRev_load] at hf
      have hfk : filterKeep (Instr.load p :: es) (false :: (scanRev es (insert p S1)).2) =
          Instr.load p :: filterKeep es (scanRev es (insert p S1)).2 := by
        simp [filterKeep]
      rw [hfk, scanRev_load] at hf
      rcases List.mem_cons.mp hf with rfl | hf2
      · rfl
      · exact ih (insert p S1) (insert p S2) (Finset.insert_subset_insert p hsub) f hf2
    | store p v vol =>
      by_cases hp : p ∈ S1
      · rw [scanRev_store_mem hp] at hf
        have hfk : filterKeep (Instr.store p v vol :: es)
            (false :: (scanRev es (S1.erase p)).2) =
            Instr.store p v vol :: filterKeep es (scanRev es (S1.erase p)).2 := by
          simp [filterKeep]
        rw [hfk, scanRev_store_mem (hsub hp)] at hf
        rcases List.mem_cons.mp hf with rfl | hf2
        · rfl
        · exact ih (S1.erase p) (S2.erase p) (Finset.erase_subset_erase p hsub) f hf2
      · rw [scanRev_store_not_mem hp] at hf
        have hfk : filterKeep (Instr.store p v vol :: es) (true :: (scanRev es S1).2) =
            filterKeep es (scanRev es S1).2 := by
          simp [filterKeep]
        rw [hfk] at hf
        exact ih S1 S2 hsub f hf
    | other =>
      rw [scanRev_other] at hf
      have hfk : filterKeep (Instr.other :: es) (false :: (scanRev es S1).2) =
          Instr.other :: filterKeep es (scanRev es S1).2 := by
        simp [filterKeep]
      rw [hfk, scanRev_other] at hf
      rcases List.mem_cons.mp hf with rfl | hf2
      · rfl
      · exact ih S1 S2 hsub f hf2

/-! ### The pass is idempotent -/

theorem order_run (G : CFG) : order (runOnFunction G) = order G := rfl

theorem succs_run (G : CFG) : (runOnFunction G).succs = G.succs := rfl

theorem body_run (G : CFG) : (runOnFunction G).body = runBody G := rfl

/-- Every flag raised by the marking scan sits on a store instruction. -/
theorem marksOf_stores {G : CFG} {b : Nat} :
    ∀ j, (marksOf G b).get? j = some true →
      ∃ p v vol, (G.body b).reverse.get? j = some (.store p v vol) := by
  intro j hj
  obtain ⟨p, v, vol, hget, -⟩ := scanRev_mark hj
  exact ⟨p, v, vol, hget⟩

theorem runBody_eq_of_mem {G : CFG} {b : Nat} (hb : b ∈ order G) :
    runBody G b = (filterKeep (G.body b).reverse (marksOf G b)).reverse := by
  rw [runBody, if_pos hb]

theorem runBody_eq_of_not_mem {G : CFG} {b : Nat} (hb : b ∉ order G) :
    runBody G b = G.body b := by
  rw [runBody, if_neg hb]

/-- The converged state of the SECOND run is closed for the equations of
the FIRST program: removing (store) instructions only enlarges the
backward transfer. -/
theorem run_closed (G : CFG) : closedFor G (solve (runOnFunction G)) := by
  intro b hb
  have hb2 : b ∈ order (runOnFunction G) := by rw [order_run]; exact hb
  have heqs := solve_eqns (runOnFunction G) b hb2
  constructor
  · exact le_of_eq heqs.1
  · have hsub : transferB (G.body b) ((solve (runOnFunction G)).loads_out b) ⊆
        transferB ((runOnFunction G).body b) ((solve (runOnFunction G)).loads_out b) := by
      rw [body_run, runBody_eq_of_mem hb, transferB_eq_foldStep, transferB_eq_foldStep,
        List.reverse_reverse]
      exact foldStep_filterKeep marksOf_stores
    exact hsub.trans (le_of_eq heqs.2)

theorem solve_le_run (G : CFG) : mapsLe (solve G) (solve (runOnFunction G)) :=
  solve_le_closed (run_closed G)

/-- The second run raises no flag in any scheduled block. -/
theorem second_run_no_marks {G : CFG} {b : Nat} (hb : b ∈ order G) :
    ∀ f ∈ marksOf (runOnFunction G) b, f = false := by
  intro f hf
  have hbody : ((runOnFunction G).body b).reverse =
      filterKeep (G.body b).reverse (marksOf G b) := by
    rw [body_run, runBody_eq_of_mem hb, List.reverse_reverse]
  rw [marksOf, hbody] at hf
  exact rescan_no_marks (G.body b).reverse ((solve G).loads_out b)
    ((solve (runOnFunction G)).loads_out b) ((solve_le_run G).2 b) f hf

theorem run_idempotent (G : CFG) :
    runChanged (runOnFunction G) = false ∧
    ∀ b, runBody (runOnFunction G) b = runBody G b := by
  constructor
  · rw [runChanged, order_run, List.any_eq_false]
    intro b hb
    rw [Bool.not_eq_true, List.any_eq_false]
    intro f hf
    simp [second_run_no_marks hb f hf]
  · intro b
    by_cases hb : b ∈ order G
    · have hb2 : b ∈ order (runOnFunction G) := by rw [order_run]; exact hb
      rw [runBody_eq_of_mem hb2, filterKeep_allfalse (second_run_no_marks hb),
        List.reverse_reverse, body_run]
    · have hb2 : b ∉ order (runOnFunction G) := by rw [order_run]; exact hb
      rw [runBody_eq_of_not_mem hb2, body_run]

/-! ### A raised flag shortens the block -/

theorem runBody_ne_of_mark {G : CFG} {b : Nat} (hb : b ∈ order G)
    (hex : ∃ f ∈ marksOf G b, f = true) : runBody G b ≠ G.body b := by
  intro hcontra
  have hlen : (marksOf G b).length = (G.body b).reverse.length := scanRev_length _ _
  have hlt := filterKeep_length_lt hlen hex
  rw [runBody_eq_of_mem hb] at hcontra
  have hlen2 : (filterKeep (G.body b).reverse (marksOf G b)).reverse.length =
      (G.body b).length := by rw [hcontra]
  rw [List.length_reverse] at hlt hlen2
  omega

/-! ### The pass reads a store only through its pointer operand -/

theorem step_keyOf (i : Instr) (s : Finset Nat) : step (keyOf i) s = step i s := by
  cases i <;> rfl

theorem transferB_map_keyOf (es : List Instr) (s : Finset Nat) :
    transferB (es.map keyOf) s = transferB es s := by
  induction es with
  | nil => rfl
  | cons i rest ih => rw [List.map_cons, transferB_cons, transferB_cons, ih, step_keyOf]

theorem scanRev_map_keyOf : ∀ (l : List Instr) (s : Finset Nat),
    scanRev (l.map keyOf) s = scanRev l s := by
  intro l
  induction l with
  | nil => intro s; rfl
  | cons i es ih =>
    intro s
    cases i with
    | load p =>
      rw [List.map_cons]
      show scanRev (Instr.load p :: es.map keyOf) s = _
      rw [scanRev_load, scanRev_load, ih]
    | store p v vol =>
      rw [List.map_cons]
      show scanRev (Instr.store p 0 false :: es.map keyOf) s = _
      by_cases hp : p ∈ s
      · rw [scanRev_store_mem hp, scanRev_store_mem hp, ih]
      · rw [scanRev_store_not_mem hp, scanRev_store_not_mem hp, ih]
    | other =>
      rw [List.map_cons]
      show scanRev (Instr.other :: es.map keyOf) s = _
      rw [scanRev_other, scanRev_other, ih]

theorem loadPtrs_map_keyOf (es : List Instr) : loadPtrs (es.map keyOf) = loadPtrs es := by
  induction es with
  | nil => rfl
  | cons i rest ih =>
    cases i with
    | load p => rw [List.map_cons]; show loadPtrs (Instr.load p :: _) = _
                rw [loadPtrs_load_cons, loadPtrs_load_cons, ih]
    | store p v vol => rw [List.map_cons]; show loadPtrs (Instr.store p 0 false :: _) = _
                       rw [loadPtrs_store_cons, loadPtrs_store_cons, ih]
    | other => rw [List.map_cons]; show loadPtrs (Instr.other :: _) = _
               rw [loadPtrs_other_cons, loadPtrs_other_cons, ih]

section Congruence

variable {G G' : CFG}

theorem order_congr (hn : G.n = G'.n) (he : G.entry = G'.entry)
    (hs : G.succs = G'.succs) : order G = order G' := by
  unfold order
  rw [hn, he, hs]

theorem transferB_congr (hb : ∀ b, (G.body b).map keyOf = (G'.body b).map keyOf)
    (b : Nat) (s : Finset Nat) : transferB (G.body b) s = transferB (G'.body b) s := by
  rw [← transferB_map_keyOf, hb b, transferB_map_keyOf]

theorem visitBlock_congr (hs : G.succs = G'.succs)
    (hb : ∀ b, (G.body b).map keyOf = (G'.body b).map keyOf) :
    visitBlock G = visitBlock G' := by
  funext st b
  simp only [visitBlock, hs, transferB_congr hb]

theorem solverPass_congr (hn : G.n = G'.n) (he : G.entry = G'.entry)
    (hs : G.succs = G'.succs)
    (hb : ∀ b, (G.body b).map keyOf = (G'.body b).map keyOf) :
    ∀ st, solverPass G st = solverPass G' st := by
  intro st
  unfold solverPass
  rw [order_congr hn he hs, visitBlock_congr hs hb]

theorem solverLoop_congr (hn : G.n = G'.n) (he : G.entry = G'.entry)
    (hs : G.succs = G'.succs)
    (hb : ∀ b, (G.body b).map keyOf = (G'.body b).map keyOf) :
    ∀ fuel st, solverLoop G fuel st = solverLoop G' fuel st := by
  intro fuel
  induction fuel with
  | zero => intro st; rfl
  | succ fuel ih =>
    intro st
    simp only [solverLoop, solverPass_congr hn he hs hb st]
    rw [ih]

theorem allLoadLocs_congr (hn : G.n = G'.n) (he : G.entry = G'.entry)
    (hs : G.succs = G'.succs)
    (hb : ∀ b, (G.body b).map keyOf = (G'.body b).map keyOf) :
    allLoadLocs G = allLoadLocs G' := by
  unfold allLoadLocs
  rw [order_congr hn he hs]
  have hfun : (fun b acc => loadPtrs (G.body b) ∪ acc) =
      (fun b acc => loadPtrs (G'.body b) ∪ acc) := by
    funext b acc
    rw [← loadPtrs_map_keyOf, hb b, loadPtrs_map_keyOf]
  rw [hfun]

theorem solve_congr (hn : G.n = G'.n) (he : G.entry = G'.entry)
    (hs : G.succs = G'.succs)
    (hb : ∀ b, (G.body b).map keyOf = (G'.body b).map keyOf) :
    solve G = solve G' := by
  unfold solve solveBound
  rw [order_congr hn he hs, allLoadLocs_congr hn he hs hb,
    solverLoop_congr hn he hs hb]

theorem marksOf_congr (hn : G.n = G'.n) (he : G.entry = G'.entry)
    (hs : G.succs = G'.succs)
    (hb : ∀ b, (G.body b).map keyOf = (G'.body b).map keyOf) :
    ∀ b, marksOf G b = marksOf G' b := by
  intro b
  unfold marksOf
  rw [solve_congr hn he hs hb]
  have hrev : ((G.body b).reverse).map keyOf = ((G'.body b).reverse).map keyOf := by
    rw [List.map_reverse, List.map_reverse, hb b]
  rw [← scanRev_map_keyOf (G.body b).reverse, hrev, scanRev_map_keyOf]

theorem runChanged_congr (hn : G.n = G'.n) (he : G.entry = G'.entry)
    (hs : G.succs = G'.succs)
    (hb : ∀ b, (G.body b).map keyOf = (G'.body b).map keyOf) :
    runChanged G = runChanged G' := by
  unfold runChanged
  rw [order_congr hn he hs]
  have hfun : (fun b => (marksOf G b).any fun f => f) =
      (fun b => (marksOf G' b).any fun f => f) := by
    funext b
    rw [marksOf_congr hn he hs hb]
  rw [hfun]

end Congruence

/-! ### Locating the elements of the solver lattice -/

theorem mem_fold_loadPtrs {body : Nat → List Instr} {p : Nat} :
    ∀ {l : List Nat}, p ∈ l.foldr (fun c acc => loadPtrs (body c) ∪ acc) ∅ ↔
      ∃ b ∈ l, p ∈ loadPtrs (body b) := by
  intro l
  induction l with
  | nil => simp
  | cons c rest ih =>
    simp only [List.foldr_cons]
    constructor
    · intro h
      rcases Finset.mem_union.mp h with h | h
      · exact ⟨c, List.mem_cons_self _ _, h⟩
      · obtain ⟨b, hb, hp⟩ := ih.mp h
        exact ⟨b, List.mem_cons_of_mem _ hb, hp⟩
    · rintro ⟨b, hb, hp⟩
      rcases List.mem_cons.mp hb with rfl | hb2
      · exact Finset.mem_union_left _ hp
      · exact Finset.mem_union_right _ (ih.mpr ⟨b, hb2, hp⟩)

theorem mem_allLoadLocs_reach {G : CFG} {p : Nat} (h : p ∈ allLoadLocs G) :
    ∃ c, Reach G G.entry c ∧ p ∈ loadPtrs (G.body c) := by
  obtain ⟨b, hb, hp⟩ := mem_fold_loadPtrs.mp h
  exact ⟨b, (mem_order_iff_reach G b).mp hb, hp⟩

/-! ## The claims -/

/-- C1 (no false elimination): for every store instruction the pass
deletes — an erase flag at position `j` of the reversed scan of a
scheduled block `b`, sitting on a store to `p` — there is no execution
path from that store's program point (the remaining instructions of `b`
followed by any successor chain `bs` of whole blocks, all within the
region reachable from the entry) on which the first access to `p` is a
load: the deleted store's value can never be read. -/
theorem claim_c1 (G : CFG) (b j p v : Nat) (vol : Bool)
    (hb : b ∈ order G)
    (hmark : (marksOf G b).get? j = some true)
    (hstore : (G.body b).reverse.get? j = some (.store p v vol))
    (bs : List Nat) (hchain : List.Chain (fun a c => c ∈ G.succs a) b bs) :
    ¬ firstAcc p ((G.body b).drop ((G.body b).length - j) ++ pathInstrs G bs) =
      some true := by
  intro hacc
  obtain ⟨p', v', vol', hget, hnot⟩ := marksOf_spec hmark
  rw [hstore] at hget
  injection hget with hget2
  injection hget2 with hp hv hvol
  subst hp
  cases hfa : firstAcc p ((G.body b).drop ((G.body b).length - j)) with
  | some val =>
    rw [firstAcc_append_some hfa] at hacc
    injection hacc with hval
    subst hval
    exact hnot ((mem_transferB p _ _).mpr (Or.inl hfa))
  | none =>
    rw [firstAcc_append_none hfa] at hacc
    have hout : p ∈ (solve G).loads_out b := path_live bs b hb hchain hacc
    exact hnot ((mem_transferB p _ _).mpr (Or.inr ⟨hfa, hout⟩))

/-- Witness for C1 at `G3`: the first of the two stores is deleted and the
path consisting of the rest of the block never loads location 1. -/
theorem claim_c1_witness :
    ¬ firstAcc 1 ((G3.body 0).drop ((G3.body 0).length - 1) ++ pathInstrs G3 []) =
      some true :=
  claim_c1 G3 0 1 1 0 false (by decide) (by decide) (by decide) [] List.Chain.nil

/-- C2 (fixed-point soundness): at the state the while-loop converges to,
every scheduled block satisfies the dataflow equations — `loads_out[B]`
is the union of the successors' `loads_in` (empty for no successors) and
`loads_in[B]` is the backward transfer of `loads_out[B]` through the
block — and re-running one more full pass changes neither map and reports
no change. -/
theorem claim_c2 (G : CFG) :
    (∀ b, b ∈ order G →
      (solve G).loads_out b = succUnion (solve G).loads_in (G.succs b) ∧
      (solve G).loads_in b = transferB (G.body b) ((solve G).loads_out b)) ∧
    (solverPass G (solve G)).loads_in = (solve G).loads_in ∧
    (solverPass G (solve G)).loads_out = (solve G).loads_out ∧
    (solverPass G (solve G)).changed = false := by
  have hconv := (solve_converged G).1
  obtain ⟨heq, heqs⟩ := pass_nochange hconv
  refine ⟨?_, ?_, ?_, hconv⟩
  · intro b hb
    exact ⟨(heqs b hb).1.symm, (heqs b hb).2.symm⟩
  · rw [heq]
  · rw [heq]

/-- Witness for C2 at the self-loop fixture `G4a`, block 0. -/
theorem claim_c2_witness :
    (solve G4a).loads_out 0 = succUnion (solve G4a).loads_in (G4a.succs 0) ∧
    (solve G4a).loads_in 0 = transferB (G4a.body 0) ((solve G4a).loads_out 0) :=
  (claim_c2 G4a).1 0 (by decide)

/-- C3, counterexample: on the block `store L1; store L1` with no
successors the final sequence is NOT `[store L1]` (both stores are
flagged: the scan leaves the dead store's location out of the live set,
so the earlier store is dead as well). -/
theorem claim_c3_counterexample :
    ¬ (runOnFunction G3).body 0 = [Instr.store 1 0 false] := by decide

/-- C3 as amended: on `store L1; store L1` with no successors the pass
deletes BOTH stores, returns changed = true, and leaves the block
empty. -/
theorem claim_c3 :
    runChanged G3 = true ∧ (runOnFunction G3).body 0 = [] := by decide

/-- C4, counterexample: with the self-loop edge removed, the store of
`store L1; load L1` is NOT deleted (the block-local load after the store
keeps location 1 live at the store), so the final sequence is not
`[load L1]`. -/
theorem claim_c4_counterexample :
    ¬ (runOnFunction G4b).body 0 = [Instr.load 1] := by decide

/-- C4 as amended: in BOTH variants — the self-loop block and the same
block with the loop edge removed — the store of `store L1; load L1` is
kept and the pass reports no change. -/
theorem claim_c4 :
    (runOnFunction G4a).body 0 = G4a.body 0 ∧ runChanged G4a = false ∧
    (runOnFunction G4b).body 0 = G4b.body 0 ∧ runChanged G4b = false := by decide

/-- C5 (idempotence): running the pass a second time on the result of a
first run reports changed = false and leaves every block's instruction
sequence exactly as the first run left it. -/
theorem claim_c5 (G : CFG) :
    runChanged (runOnFunction G) = false ∧
    ∀ b, (runOnFunction (runOnFunction G)).body b = (runOnFunction G).body b := by
  obtain ⟨h1, h2⟩ := run_idempotent G
  exact ⟨h1, fun b => h2 b⟩

/-- C6 (DFS postorder): the computed order contains a block iff it is
reachable from the entry along successor edges, contains no duplicates,
and is a depth-first postorder: every successor edge out of a scheduled
block either points to a block placed strictly earlier in the sequence or
to a block that can reach the edge's source (a back edge into the chain
of still-open ancestors). -/
theorem claim_c6 (G : CFG) :
    (∀ b, b ∈ order G ↔ Reach G G.entry b) ∧
    (order G).Nodup ∧
    (∀ b s, b ∈ order G → s ∈ G.succs b →
      ordBefore s b (order G) ∨ Reach G s b) := by
  refine ⟨fun b => mem_order_iff_reach G b, (order_core G).1, ?_⟩
  intro b s hb hs
  exact (order_core G).2.2.2.2 b hb s hs

/-- Witness for C6: the self-loop edge of `G4a` is a back edge. -/
theorem claim_c6_witness :
    ordBefore 0 0 (order G4a) ∨ Reach G4a 0 0 :=
  (claim_c6 G4a).2.2 0 0 (by decide) (by decide)

/-- C7 (unreachable blocks untouched): a block with no path from the
entry keeps its instruction sequence unchanged, and whenever the pass
reports a change some reachable block's sequence actually changed — an
unreachable block can never be the reason for `changed`. -/
theorem claim_c7 (G : CFG) (b : Nat) (hunreach : ¬ Reach G G.entry b) :
    (runOnFunction G).body b = G.body b ∧
    (runChanged G = true →
      ∃ c, Reach G G.entry c ∧ (runOnFunction G).body c ≠ G.body c) := by
  have hnot : b ∉ order G := fun h => hunreach ((mem_order_iff_reach G b).mp h)
  constructor
  · rw [body_run]
    exact runBody_eq_of_not_mem hnot
  · intro hch
    rw [runChanged, List.any_eq_true] at hch
    obtain ⟨c, hc, hcm⟩ := hch
    rw [List.any_eq_true] at hcm
    obtain ⟨f, hf, hft⟩ := hcm
    refine ⟨c, (mem_order_iff_reach G c).mp hc, ?_⟩
    rw [body_run]
    exact runBody_ne_of_mark hc ⟨f, hf, by simpa using hft⟩

/-- Witness for C7 at `G7`: block 1 is unreachable and keeps its dead
store. -/
theorem claim_c7_witness :
    (runOnFunction G7).body 1 = G7.body 1 ∧
    (runChanged G7 = true →
      ∃ c, Reach G7 G7.entry c ∧ (runOnFunction G7).body c ≠ G7.body c) :=
  claim_c7 G7 1
    (fun h => absurd ((mem_order_iff_reach G7 1).mpr h) (by decide))

/-- C8 (termination): the while-loop reaches its fixed point within
`solveBound G + 1` full passes — giving the loop any more fuel returns
the same state, and one further pass on that state reports no change.
The bound is twice the number of scheduled blocks times the number of
location identifiers loaded in the procedure, the height of the finite
powerset lattice the sets grow in. -/
theorem claim_c8 (G : CFG) :
    (∀ extra, solverLoop G (solveBound G + 1 + extra) initState = solve G) ∧
    (solverPass G (solve G)).changed = false :=
  ⟨(solve_converged G).2.2.2, (solve_converged G).1⟩

/-- C9 (only the pointer operand matters): two procedures with the same
graph whose instruction lists agree after erasing the stored value and
volatile flag of every store (`keyOf`) get identical erase flags in every
block and the same `changed` result — the pass does not filter volatile
or otherwise observable stores. -/
theorem claim_c9 (G G' : CFG) (hn : G.n = G'.n) (he : G.entry = G'.entry)
    (hs : G.succs = G'.succs)
    (hb : ∀ b, (G.body b).map keyOf = (G'.body b).map keyOf) :
    (∀ b, marksOf G b = marksOf G' b) ∧ runChanged G = runChanged G' :=
  ⟨marksOf_congr hn he hs hb, runChanged_congr hn he hs hb⟩

/-- Witness for C9: `G9` carries volatile stores of other values, `G3`
plain ones; the deletions agree. -/
theorem claim_c9_witness : marksOf G9 0 = marksOf G3 0 :=
  (claim_c9 G9 G3 rfl rfl rfl (fun b => by cases b <;> rfl)).1 0

/-- C10 (the sets only hold loaded locations): after any sequence of
block visits of the solver starting from the empty maps — in particular
after every visit of every pass — and at the converged state, every
location in any `loads_in`/`loads_out` set is the pointer operand of a
load in some block reachable from the entry; and a store never inserts
into the working set, it can only remove. -/
theorem claim_c10 (G : CFG) :
    (∀ (bs : List Nat), (∀ b ∈ bs, b ∈ order G) → ∀ b p,
      (p ∈ (bs.foldl (visitBlock G) initState).loads_in b ∨
       p ∈ (bs.foldl (visitBlock G) initState).loads_out b) →
      ∃ c, Reach G G.entry c ∧ p ∈ loadPtrs (G.body c)) ∧
    (∀ b p, (p ∈ (solve G).loads_in b ∨ p ∈ (solve G).loads_out b) →
      ∃ c, Reach G G.entry c ∧ p ∈ loadPtrs (G.body c)) ∧
    (∀ (p v : Nat) (vol : Bool) (s : Finset Nat), step (.store p v vol) s ⊆ s) := by
  refine ⟨?_, ?_, ?_⟩
  · intro bs hbs b p hp
    have hB : BInv G (bs.foldl (visitBlock G) initState) :=
      foldVisit_BInv hbs (BInv_init G)
    rcases hp with hp | hp
    · exact mem_allLoadLocs_reach ((hB b).1 hp)
    · exact mem_allLoadLocs_reach ((hB b).2 hp)
  · intro b p hp
    have hB := (solve_converged G).2.1
    rcases hp with hp | hp
    · exact mem_allLoadLocs_reach ((hB b).1 hp)
    · exact mem_allLoadLocs_reach ((hB b).2 hp)
  · intro p v vol s
    exact step_store_subset p v vol s

/-- Witness for C10 at `G10`: after visiting block 0 once, location 1 is
in `loads_in[0]` and is indeed loaded in a reachable block. -/
theorem claim_c10_witness :
    ∃ c, Reach G10 G10.entry c ∧ 1 ∈ loadPtrs (G10.body c) :=
  (claim_c10 G10).1 [0] (by decide) 0 1 (Or.inl (by decide))

end DSE
